import Mathlib

/-
Shallow embedding of the Go package `conn` (file src/conn.go), a bounded
pool of closable resources.

Modelling conventions (sequential single-caller semantics):
  - A Go channel of capacity `max` becomes a `List` (for the resource pool,
    FIFO: head is the next value received, send appends at the tail) or a
    `Nat` length (for the `notice` channel of unit values).
  - The `sync.Mutex` becomes a `locked : Bool` flag.  An operation that
    would wait forever in a sequential execution (receiving on an empty
    channel with nobody to send, locking a mutex that is already held,
    sending on a full channel) returns `none`.
  - A `Poolable` carries its identity, whether its `Context.Done()` channel
    has already fired (`done`), and whether `Conn.Close()` on the wrapped
    `io.Closer` fails (`closeFails`).  Both are immutable observations.
  - The `builder` closure is modelled as a function from the invocation
    index to the result; the field `built` in the state counts how many
    invocations have happened, which sequences the builder deterministically.
  - `leaked` and `closeCalls` are ghost fields used only by the proofs:
    `closeCalls` records every invocation of the underlying close operation
    (in order), and `leaked` counts resources that `Acquire` dropped after
    their close failed (the Go code ignores that error and abandons the
    value).  No program branch reads them.
-/
structure Poolable where
  pid : Nat
  done : Bool
  closeFails : Bool
deriving DecidableEq, Repr

inductive Err where
  | poolClosed
  | invalidConfig
  | builderErr
  | closeErr
deriving DecidableEq, Repr

/-- One pool manager state, mirroring the fields of the Go struct `Conn`
(the function-valued field `builder` is passed to the operations instead,
together with the ghost invocation counter `built`). -/
structure Conn where
  notice : Nat
  pool : List Poolable
  max : Int
  active : Int
  closed : Bool
  locked : Bool
  built : Nat
  leaked : Nat
  closeCalls : List Poolable
deriving DecidableEq, Repr

/-- The builder callback, `func() (*Poolable, error)`, determinised by the
invocation index. -/
def Builder : Type := Nat → Except Unit Poolable

namespace Conn

/-- Go method `Close` (lines 90-102): lock the mutex, call the underlying
close; on failure return the error WITHOUT unlocking (the Go code returns
before `Unlock`); on success decrement `active`, send one notice if none is
pending, unlock. -/
def Close (c : Poolable) (s : Conn) : Option (Except Err Unit × Conn) :=
  if s.locked then none
  else
    let s1 : Conn := { s with locked := true, closeCalls := s.closeCalls ++ [c] }
    if c.closeFails then some (.error .closeErr, s1)
    else
      let s2 : Conn := { s1 with active := s1.active - 1 }
      let s3 : Conn := if s2.notice = 0 then { s2 with notice := 1 } else s2
      some (.ok (), { s3 with locked := false })

/-- Go method `Regain` (lines 81-87): fail if the closed flag is set,
otherwise send the resource back into the pool channel (which blocks when
the channel is full; no mutex involved). -/
def Regain (c : Poolable) (s : Conn) : Option (Except Err Unit × Conn) :=
  if s.closed then some (.error .poolClosed, s)
  else if s.pool.length < s.max.toNat then some (.ok (), { s with pool := s.pool ++ [c] })
  else none

/-- Go method `Release` (lines 105-118): fail if already closed; lock the
mutex, close the pool channel and drain it, decrementing `active` once per
drained resource and calling the underlying close (its error is ignored),
then set the closed flag and unlock. -/
def Release (s : Conn) : Option (Except Err Unit × Conn) :=
  if s.closed then some (.error .poolClosed, s)
  else if s.locked then none
  else some (.ok (), { s with pool := [],
                              active := s.active - (s.pool.length : Int),
                              closeCalls := s.closeCalls ++ s.pool,
                              closed := true })

/-- Go method `acquire` (lines 52-78), one sequential execution.  Fast
path: a nonempty pool channel is received from immediately.  Otherwise lock
the mutex; if `active >= max`, unlock and wait on the pool or the notice
channel, which in a sequential run can only drain notices and then block,
so it is `none`.  Otherwise invoke the builder: on failure unlock and
propagate; on success increment `active`, send the new value through the
(empty) pool channel and receive it back, unlock. -/
def acquire (bs : Builder) (s : Conn) : Option (Except Err Poolable × Conn) :=
  match s.pool with
  | c :: rest => some (.ok c, { s with pool := rest })
  | [] =>
    if s.locked then none
    else if s.max ≤ s.active then none
    else
      match bs s.built with
      | .error _ => some (.error .builderErr, { s with built := s.built + 1 })
      | .ok c => some (.ok c, { s with built := s.built + 1, active := s.active + 1 })

/-- The retry loop of Go method `Acquire` (lines 37-49), fuelled: call
`acquire`; propagate errors; if the obtained resource has a fired `Done`
signal, call `Close` on it (the Go code ignores the returned error: on a
failed close the resource is simply dropped, recorded in the ghost field
`leaked`) and loop.  Exhausted fuel is `none`, like a blocked run. -/
def acquireLoop (bs : Builder) : Nat → Conn → Option (Except Err Poolable × Conn)
  | 0, _ => none
  | fuel + 1, s =>
    match acquire bs s with
    | none => none
    | some (.error e, s1) => some (.error e, s1)
    | some (.ok c, s1) =>
      if c.done then
        match Close c s1 with
        | none => none
        | some (.ok _, s2) => acquireLoop bs fuel s2
        | some (.error _, s2) => acquireLoop bs fuel { s2 with leaked := s2.leaked + 1 }
      else some (.ok c, s1)

/-- Go method `Acquire` (lines 33-50): check the closed flag once, then run
the retry loop. -/
def Acquire (bs : Builder) (fuel : Nat) (s : Conn) : Option (Except Err Poolable × Conn) :=
  if s.closed then some (.error .poolClosed, s) else acquireLoop bs fuel s

/-- The eager fill loop of Go function `NewManager` (lines 133-140),
returning the resulting state (or the builder failure) together with the
number of builder invocations made. -/
def fillLoop (bs : Builder) : Nat → Conn → (Except Unit Conn) × Nat
  | 0, s => (.ok s, 0)
  | n + 1, s =>
    match bs s.built with
    | .error _ => (.error (), 1)
    | .ok c =>
      let r := fillLoop bs n { s with built := s.built + 1,
                                      active := s.active + 1,
                                      pool := s.pool ++ [c] }
      (r.1, r.2 + 1)

end Conn

/-- Go function `NewManager` (lines 121-142): reject a non-positive
capacity, otherwise build `max` resources eagerly, incrementing `active`
and filling the pool channel; a builder failure aborts and propagates.  The
second component counts builder invocations. -/
def NewManager (max : Int) (bs : Builder) : (Except Err Conn) × Nat :=
  if max ≤ 0 then (.error .invalidConfig, 0)
  else
    let init : Conn := { notice := 0, pool := [], max := max, active := 0,
                         closed := false, locked := false, built := 0,
                         leaked := 0, closeCalls := [] }
    match Conn.fillLoop bs max.toNat init with
    | (.ok s, n) => (.ok s, n)
    | (.error _, n) => (.error .builderErr, n)

/-
The caller protocol.  A `World` pairs the pool state with the multiset of
resources currently checked out by consumers.  A command regains or closes
only a resource the caller actually holds (each resource is closed at most
once: a successfully closed resource leaves `held`), which is exactly the
protocol the specification assumes.
-/
inductive Cmd where
  | acquire (fuel : Nat)
  | regain (c : Poolable)
  | close (c : Poolable)
  | release
deriving DecidableEq, Repr

structure World where
  conn : Conn
  held : List Poolable
deriving DecidableEq, Repr

def step (bs : Builder) (w : World) : Cmd → Option World
  | .acquire fuel =>
    match Conn.Acquire bs fuel w.conn with
    | none => none
    | some (.error _, s) => some ⟨s, w.held⟩
    | some (.ok c, s) => some ⟨s, w.held ++ [c]⟩
  | .regain c =>
    if c ∈ w.held then
      match Conn.Regain c w.conn with
      | none => none
      | some (.ok _, s) => some ⟨s, w.held.erase c⟩
      | some (.error _, s) => some ⟨s, w.held⟩
    else none
  | .close c =>
    if c ∈ w.held then
      match Conn.Close c w.conn with
      | none => none
      | some (.ok _, s) => some ⟨s, w.held.erase c⟩
      | some (.error _, s) => some ⟨s, w.held⟩
    else none
  | .release =>
    match Conn.Release w.conn with
    | none => none
    | some (_, s) => some ⟨s, w.held⟩

def run (bs : Builder) : World → List Cmd → Option World
  | w, [] => some w
  | w, c :: cs =>
    match step bs w c with
    | none => none
    | some w' => run bs w' cs

/-- A world is reachable when it arises from `NewManager` followed by any
sequence of protocol-respecting calls that all complete. -/
def Reachable (bs : Builder) (w : World) : Prop :=
  ∃ (cap : Int) (s0 : Conn) (cmds : List Cmd),
    (NewManager cap bs).1 = .ok s0 ∧ run bs ⟨s0, []⟩ cmds = some w

/-- Sample builders used by concrete witnesses and counterexamples. -/
def bsLive : Builder := fun i => .ok ⟨i, false, false⟩

/-
Accounting.  `bal s` is the number of resources the pool believes are
checked out: constructed and not yet closed, minus those idle in the pool
channel, minus those leaked by `Acquire` after a failed internal close.
-/
def bal (s : Conn) : Int := s.active - ((s.pool.length + s.leaked : Nat) : Int)

/-- The protocol invariant: the pool believes exactly the checked-out
resources are outstanding, and `active` never exceeds the capacity. -/
def WInv (w : World) : Prop :=
  bal w.conn = (w.held.length : Int) ∧ w.conn.active ≤ w.conn.max

/-
Concrete fixtures used by witnesses and counterexamples.
-/
def p0 : Poolable := ⟨0, false, false⟩

def p1 : Poolable := ⟨1, false, false⟩

/-- The state `NewManager 1 bsLive` produces. -/
def s0Live : Conn :=
  { notice := 0, pool := [p0], max := 1, active := 1, closed := false,
    locked := false, built := 1, leaked := 0, closeCalls := [] }

/-- The state `NewManager 2 bsLive` produces. -/
def s2Live : Conn :=
  { notice := 0, pool := [p0, p1], max := 2, active := 2, closed := false,
    locked := false, built := 2, leaked := 0, closeCalls := [] }

/-- The state after releasing the capacity-1 pool. -/
def s0Rel : Conn :=
  { notice := 0, pool := [], max := 1, active := 0, closed := true,
    locked := false, built := 1, leaked := 0, closeCalls := [p0] }

/-- Builder whose first resource has a failing underlying close. -/
def bsC9 : Builder := fun i =>
  if i = 0 then .ok ⟨0, false, true⟩ else .ok ⟨i, false, false⟩

/-- Resource 0 of `bsC9`: live, but its underlying close fails. -/
def q0 : Poolable := ⟨0, false, true⟩

/-- State after `NewManager 2 bsC9` and acquiring both resources. -/
def sC9 : Conn :=
  { notice := 0, pool := [], max := 2, active := 2, closed := false,
    locked := false, built := 2, leaked := 0, closeCalls := [] }

/-- State after the failed `Close q0` on `sC9`: the mutex is left locked. -/
def sC9L : Conn :=
  { notice := 0, pool := [], max := 2, active := 2, closed := false,
    locked := true, built := 2, leaked := 0, closeCalls := [q0] }

/-- State with the closed flag set but a live resource still in the pool
channel, as a concurrent `Release` racing an in-flight `Acquire` retry could
produce. -/
def sC3 : Conn :=
  { notice := 0, pool := [⟨5, false, false⟩], max := 1, active := 1,
    closed := true, locked := false, built := 0, leaked := 0, closeCalls := [] }

/-- A resource whose liveness signal has fired and whose underlying close
fails. -/
def pDeadBad : Poolable := ⟨7, true, true⟩

/-- Open capacity-2 state whose pool front is `pDeadBad` followed by a live
resource. -/
def sC4 : Conn :=
  { notice := 0, pool := [pDeadBad, p1], max := 2, active := 2,
    closed := false, locked := false, built := 2, leaked := 0, closeCalls := [] }

/-- Capacity-1 state whose single pooled resource is expired but closes
fine. -/
def sC4w : Conn :=
  { notice := 0, pool := [⟨3, true, false⟩], max := 1, active := 1,
    closed := false, locked := false, built := 1, leaked := 0, closeCalls := [] }

/-- Builder whose second invocation fails. -/
def bsFail : Builder := fun i => if i = 0 then .ok p0 else .error ()

example : (NewManager 1 bsLive).1 =
    .ok { notice := 0, pool := [⟨0, false, false⟩], max := 1, active := 1,
          closed := false, locked := false, built := 1, leaked := 0,
          closeCalls := [] } := by rfl

example : (NewManager 2 bsLive).2 = 2 := by rfl

example : (NewManager 0 bsLive).1 = .error .invalidConfig := by rfl

theorem acquire_spec (bs : Builder) (s : Conn) (res : Except Err Poolable) (s' : Conn)
    (h : Conn.acquire bs s = some (res, s')) :
    s'.max = s.max ∧ s'.closed = s.closed ∧ s'.locked = s.locked ∧
    (s.active ≤ s.max → s'.active ≤ s.max) ∧
    (∀ c, res = .ok c → bal s' = bal s + 1) ∧
    (∀ e, res = .error e → bal s' = bal s) := by
  cases hp : s.pool with
  | cons c rest =>
    simp only [Conn.acquire, hp, Option.some.injEq, Prod.mk.injEq] at h
    obtain ⟨rfl, rfl⟩ := h
    refine ⟨rfl, rfl, rfl, fun h => h, ?_, ?_⟩
    · intro b hb
      simp only [bal, hp, List.length_cons]
      push_cast
      ring
    · intro e he
      cases he
  | nil =>
    simp only [Conn.acquire, hp] at h
    split at h
    · exact absurd h (by simp)
    split at h
    · exact absurd h (by simp)
    rename_i hlock hcap
    cases hb : bs s.built with
    | error e =>
      simp only [hb, Option.some.injEq, Prod.mk.injEq] at h
      obtain ⟨rfl, rfl⟩ := h
      refine ⟨rfl, rfl, rfl, fun h => h, ?_, ?_⟩
      · intro b hb2
        cases hb2
      · intro e2 he
        simp [bal, hp]
    | ok c =>
      simp only [hb, Option.some.injEq, Prod.mk.injEq] at h
      obtain ⟨rfl, rfl⟩ := h
      refine ⟨rfl, rfl, rfl, ?_, ?_, ?_⟩
      · intro _
        show s.active + 1 ≤ s.max
        omega
      · intro b hb2
        simp only [bal, hp, List.length_nil]
        push_cast
        ring
      · intro e he
        cases he

theorem Close_spec (c : Poolable) (s : Conn) (res : Except Err Unit) (s' : Conn)
    (h : Conn.Close c s = some (res, s')) :
    s'.max = s.max ∧ s'.closed = s.closed ∧ s'.pool = s.pool ∧
    s'.leaked = s.leaked ∧ s'.built = s.built ∧
    s'.closeCalls = s.closeCalls ++ [c] ∧
    (∀ u, res = .ok u → s'.active = s.active - 1 ∧ s'.locked = false ∧
      s'.notice = (if s.notice = 0 then 1 else s.notice) ∧ c.closeFails = false) ∧
    (∀ e, res = .error e → s'.active = s.active ∧ s'.notice = s.notice ∧
      s'.locked = true ∧ c.closeFails = true ∧ e = .closeErr) := by
  simp only [Conn.Close] at h
  split at h
  · exact absurd h (by simp)
  cases hf : c.closeFails with
  | true =>
    simp only [hf, if_pos, if_true, Option.some.injEq, Prod.mk.injEq] at h
    obtain ⟨rfl, rfl⟩ := h
    refine ⟨rfl, rfl, rfl, rfl, rfl, rfl, ?_, ?_⟩
    · intro u hu
      cases hu
    · intro e he
      cases he
      exact ⟨rfl, rfl, rfl, rfl, rfl⟩
  | false =>
    simp only [hf, if_false, Bool.false_eq_true, Option.some.injEq, Prod.mk.injEq] at h
    obtain ⟨rfl, rfl⟩ := h
    by_cases hn : s.notice = 0
    · simp [hf, hn]
    · simp [hf, hn]

theorem Regain_spec (c : Poolable) (s : Conn) (res : Except Err Unit) (s' : Conn)
    (h : Conn.Regain c s = some (res, s')) :
    s'.max = s.max ∧ s'.closed = s.closed ∧ s'.active = s.active ∧
    s'.locked = s.locked ∧ s'.leaked = s.leaked ∧
    (∀ u, res = .ok u → s'.pool = s.pool ++ [c] ∧ s.closed = false) ∧
    (∀ e, res = .error e → s' = s ∧ e = .poolClosed ∧ s.closed = true) := by
  simp only [Conn.Regain] at h
  split at h
  · rename_i hc
    simp only [Option.some.injEq, Prod.mk.injEq] at h
    obtain ⟨rfl, rfl⟩ := h
    refine ⟨rfl, rfl, rfl, rfl, rfl, ?_, ?_⟩
    · intro u hu
      cases hu
    · intro e he
      cases he
      exact ⟨rfl, rfl, hc⟩
  · split at h
    · rename_i hc hroom
      simp only [Option.some.injEq, Prod.mk.injEq] at h
      obtain ⟨rfl, rfl⟩ := h
      refine ⟨rfl, rfl, rfl, rfl, rfl, ?_, ?_⟩
      · intro u hu
        exact ⟨rfl, by simpa using hc⟩
      · intro e he
        cases he
    · exact absurd h (by simp)

theorem Release_spec (s : Conn) (res : Except Err Unit) (s' : Conn)
    (h : Conn.Release s = some (res, s')) :
    s'.max = s.max ∧ s'.leaked = s.leaked ∧
    (∀ u, res = .ok u → s.closed = false ∧ s.locked = false ∧ s'.closed = true ∧
      s'.pool = [] ∧ s'.active = s.active - (s.pool.length : Int) ∧
      s'.locked = s.locked ∧ s'.notice = s.notice ∧
      s'.closeCalls = s.closeCalls ++ s.pool) ∧
    (∀ e, res = .error e → s' = s ∧ e = .poolClosed ∧ s.closed = true) := by
  simp only [Conn.Release] at h
  split at h
  · rename_i hc
    simp only [Option.some.injEq, Prod.mk.injEq] at h
    obtain ⟨rfl, rfl⟩ := h
    refine ⟨rfl, rfl, ?_, ?_⟩
    · intro u hu
      cases hu
    · intro e he
      cases he
      exact ⟨rfl, rfl, hc⟩
  · split at h
    · exact absurd h (by simp)
    · rename_i hc hlock
      simp only [Option.some.injEq, Prod.mk.injEq] at h
      obtain ⟨rfl, rfl⟩ := h
      refine ⟨rfl, rfl, ?_, ?_⟩
      · intro u hu
        exact ⟨by simpa using hc, by simpa using hlock, rfl, rfl, rfl, rfl, rfl, rfl⟩
      · intro e he
        cases he

theorem acquireLoop_spec (bs : Builder) :
    ∀ (fuel : Nat) (s : Conn) (res : Except Err Poolable) (s' : Conn),
    Conn.acquireLoop bs fuel s = some (res, s') →
    s'.max = s.max ∧ s'.closed = s.closed ∧
    (s.active ≤ s.max → s'.active ≤ s.max) ∧
    (∀ c, res = .ok c → bal s' = bal s + 1 ∧ c.done = false) ∧
    (∀ e, res = .error e → bal s' = bal s) := by
  intro fuel
  induction fuel with
  | zero =>
    intro s res s' h
    exact absurd h (by simp [Conn.acquireLoop])
  | succ n ih =>
    intro s res s' h
    rw [Conn.acquireLoop] at h
    cases ha : Conn.acquire bs s with
    | none => rw [ha] at h; exact absurd h (by simp)
    | some p =>
      obtain ⟨r1, s1⟩ := p
      obtain ⟨hmax1, hclosed1, hlock1, hact1, hok1, herr1⟩ :=
        acquire_spec bs s r1 s1 ha
      rw [ha] at h
      cases r1 with
      | error e =>
        simp only [Option.some.injEq, Prod.mk.injEq] at h
        obtain ⟨rfl, rfl⟩ := h
        refine ⟨hmax1, hclosed1, hact1, ?_, ?_⟩
        · intro c hc
          cases hc
        · intro e2 he
          exact herr1 e rfl
      | ok c =>
        cases hd : c.done with
        | false =>
          simp only [hd, Bool.false_eq_true, if_false, Option.some.injEq,
            Prod.mk.injEq] at h
          obtain ⟨rfl, rfl⟩ := h
          refine ⟨hmax1, hclosed1, hact1, ?_, ?_⟩
          · intro c2 hc
            cases hc
            exact ⟨hok1 c rfl, hd⟩
          · intro e2 he
            cases he
        | true =>
          simp only [hd, if_true] at h
          cases hcl : Conn.Close c s1 with
          | none => rw [hcl] at h; exact absurd h (by simp)
          | some q =>
            obtain ⟨r2, s2⟩ := q
            obtain ⟨hmax2, hclosed2, hpool2, hleak2, _, _, hok2, herr2⟩ :=
              Close_spec c s1 r2 s2 hcl
            rw [hcl] at h
            cases r2 with
            | ok u =>
              obtain ⟨hact2, _, _, _⟩ := hok2 u rfl
              obtain ⟨hmax3, hclosed3, hact3, hok3, herr3⟩ := ih s2 res s' h
              have hbal1 : bal s1 = bal s + 1 := hok1 c rfl
              have hbal2 : bal s2 = bal s1 - 1 := by
                simp only [bal, hpool2, hleak2, hact2]
                ring
              refine ⟨hmax3.trans (hmax2.trans hmax1),
                hclosed3.trans (hclosed2.trans hclosed1), ?_, ?_, ?_⟩
              · intro hle
                have h1 : s1.active ≤ s.max := hact1 hle
                have h2 : s2.active ≤ s2.max := by
                  rw [hact2, hmax2, hmax1]
                  omega
                have h4 : s'.active ≤ s2.max := hact3 h2
                rw [hmax2, hmax1] at h4
                exact h4
              · intro c2 hc
                obtain ⟨hb, hdone⟩ := hok3 c2 hc
                refine ⟨?_, hdone⟩
                rw [hb, hbal2, hbal1]
                ring
              · intro e2 he
                have hb := herr3 e2 he
                rw [hb, hbal2, hbal1]
                ring
            | error e2 =>
              obtain ⟨hact2, _, _, _, _⟩ := herr2 e2 rfl
              set s3 : Conn := { s2 with leaked := s2.leaked + 1 } with hs3
              obtain ⟨hmax3, hclosed3, hact3, hok3, herr3⟩ := ih s3 res s' h
              have hbal1 : bal s1 = bal s + 1 := hok1 c rfl
              have hbal3 : bal s3 = bal s1 - 1 := by
                simp only [bal, hs3, hpool2, hleak2, hact2]
                push_cast
                ring
              have hm3 : s3.max = s2.max := rfl
              have hc3 : s3.closed = s2.closed := rfl
              refine ⟨hmax3.trans (hm3.trans (hmax2.trans hmax1)),
                hclosed3.trans (hc3.trans (hclosed2.trans hclosed1)), ?_, ?_, ?_⟩
              · intro hle
                have h1 : s1.active ≤ s.max := hact1 hle
                have h3 : s3.active ≤ s3.max := by
                  show s2.active ≤ s2.max
                  rw [hact2, hmax2, hmax1]
                  exact h1
                have h4 : s'.active ≤ s2.max := hact3 h3
                rw [hmax2, hmax1] at h4
                exact h4
              · intro c2 hc
                obtain ⟨hb, hdone⟩ := hok3 c2 hc
                refine ⟨?_, hdone⟩
                rw [hb, hbal3, hbal1]
                ring
              · intro e3 he
                have hb := herr3 e3 he
                rw [hb, hbal3, hbal1]
                ring

theorem Acquire_spec (bs : Builder) (fuel : Nat) (s : Conn) (res : Except Err Poolable)
    (s' : Conn) (h : Conn.Acquire bs fuel s = some (res, s')) :
    s'.max = s.max ∧ s'.closed = s.closed ∧
    (s.active ≤ s.max → s'.active ≤ s.max) ∧
    (∀ c, res = .ok c → bal s' = bal s + 1 ∧ c.done = false) ∧
    (∀ e, res = .error e → bal s' = bal s) := by
  rw [Conn.Acquire] at h
  split at h
  · simp only [Option.some.injEq, Prod.mk.injEq] at h
    obtain ⟨rfl, rfl⟩ := h
    refine ⟨rfl, rfl, fun h => h, ?_, ?_⟩
    · intro c hc
      cases hc
    · intro e he
      rfl
  · exact acquireLoop_spec bs fuel s res s' h

theorem fillLoop_ok (bs : Builder) :
    ∀ (n : Nat) (s s' : Conn), (Conn.fillLoop bs n s).1 = .ok s' →
    s'.active = s.active + (n : Int) ∧ s'.pool.length = s.pool.length + n ∧
    s'.max = s.max ∧ s'.closed = s.closed ∧ s'.locked = s.locked ∧
    s'.leaked = s.leaked ∧ s'.notice = s.notice := by
  intro n
  induction n with
  | zero =>
    intro s s' h
    simp only [Conn.fillLoop, Except.ok.injEq] at h
    subst h
    simp
  | succ m ih =>
    intro s s' h
    rw [Conn.fillLoop] at h
    cases hb : bs s.built with
    | error e => rw [hb] at h; exact absurd h (by simp)
    | ok c =>
      rw [hb] at h
      simp only at h
      obtain ⟨ha, hp, hm, hc, hl, hk, hn⟩ := ih _ s' h
      refine ⟨?_, ?_, hm, hc, hl, hk, hn⟩
      · rw [ha]
        simp only
        push_cast
        ring
      · rw [hp]
        simp only [List.length_append, List.length_cons, List.length_nil]
        omega

theorem fillLoop_all_ok (bs : Builder) (f : Nat → Poolable) :
    ∀ (n : Nat) (s : Conn), (∀ i, i < n → bs (s.built + i) = .ok (f (s.built + i))) →
    Conn.fillLoop bs n s =
      (.ok { s with built := s.built + n, active := s.active + (n : Int),
                    pool := s.pool ++ (List.range' s.built n).map f }, n) := by
  intro n
  induction n with
  | zero =>
    intro s hall
    simp only [Conn.fillLoop, List.range'_zero, List.map_nil, List.append_nil]
    congr 1
    congr 1
    cases s
    simp
  | succ m ih =>
    intro s hall
    have h0 : bs s.built = .ok (f s.built) := by
      have := hall 0 (Nat.succ_pos m)
      simpa using this
    rw [Conn.fillLoop, h0]
    simp only
    rw [ih { s with built := s.built + 1, active := s.active + 1,
                    pool := s.pool ++ [f s.built] }
        (by
          intro i hi
          simp only
          have := hall (i + 1) (by omega)
          rw [show s.built + 1 + i = s.built + (i + 1) by omega]
          exact this)]
    simp only
    congr 2
    cases s with
    | mk notice pool mx active closed locked built leaked closeCalls =>
      simp only [List.range'_succ built m 1, List.map_cons, List.cons_append,
        List.append_assoc, List.singleton_append]
      congr 1
      · omega
      · ring

theorem fillLoop_first_error (bs : Builder) :
    ∀ (j n : Nat) (s : Conn), j < n →
    (∀ i, i < j → ∃ p, bs (s.built + i) = .ok p) →
    bs (s.built + j) = .error () →
    (Conn.fillLoop bs n s).1 = .error () := by
  intro j
  induction j with
  | zero =>
    intro n s hlt _ herr
    cases n with
    | zero => omega
    | succ m =>
      rw [Conn.fillLoop]
      simp only [Nat.add_zero] at herr
      rw [herr]
  | succ k ih =>
    intro n s hlt hok herr
    cases n with
    | zero => omega
    | succ m =>
      obtain ⟨p, hp⟩ := hok 0 (Nat.succ_pos k)
      rw [Conn.fillLoop]
      simp only [Nat.add_zero] at hp
      rw [hp]
      simp only
      apply ih m _ (by omega)
      · intro i hi
        have := hok (i + 1) (by omega)
        simpa [show s.built + 1 + i = s.built + (i + 1) by omega] using this
      · simpa [show s.built + 1 + k = s.built + (k + 1) by omega] using herr

theorem step_WInv (bs : Builder) (w : World) (cmd : Cmd) (w' : World)
    (hinv : WInv w) (h : step bs w cmd = some w') : WInv w' := by
  obtain ⟨hbal, hle⟩ := hinv
  cases cmd with
  | acquire fuel =>
    simp only [step] at h
    cases ha : Conn.Acquire bs fuel w.conn with
    | none => rw [ha] at h; exact absurd h (by simp)
    | some p =>
      obtain ⟨r, s⟩ := p
      obtain ⟨hmax, hclosed, hact, hok, herr⟩ := Acquire_spec bs fuel w.conn r s ha
      rw [ha] at h
      cases r with
      | ok c =>
        simp only [Option.some.injEq] at h
        subst h
        refine ⟨?_, ?_⟩
        · show bal s = (((w.held ++ [c]).length : Nat) : Int)
          obtain ⟨hb, _⟩ := hok c rfl
          rw [hb, hbal]
          simp only [List.length_append, List.length_cons, List.length_nil]
          push_cast
          ring
        · show s.active ≤ s.max
          rw [hmax]
          exact hact hle
      | error e =>
        simp only [Option.some.injEq] at h
        subst h
        refine ⟨?_, ?_⟩
        · show bal s = ((w.held.length : Nat) : Int)
          rw [herr e rfl, hbal]
        · show s.active ≤ s.max
          rw [hmax]
          exact hact hle
  | regain c =>
    simp only [step] at h
    split at h
    · rename_i hmem
      cases ha : Conn.Regain c w.conn with
      | none => rw [ha] at h; exact absurd h (by simp)
      | some p =>
        obtain ⟨r, s⟩ := p
        obtain ⟨hmax, hclosed, hact, hlock, hleak, hok, herr⟩ :=
          Regain_spec c w.conn r s ha
        rw [ha] at h
        cases r with
        | ok u =>
          simp only [Option.some.injEq] at h
          subst h
          obtain ⟨hpool, _⟩ := hok u rfl
          refine ⟨?_, ?_⟩
          · show bal s = (((w.held.erase c).length : Nat) : Int)
            have hlen : (w.held.erase c).length = w.held.length - 1 :=
              List.length_erase_of_mem hmem
            have hpos : 1 ≤ w.held.length := by
              cases hh : w.held with
              | nil => rw [hh] at hmem; simp at hmem
              | cons a l => simp
            simp only [bal, hpool, hact, hleak, List.length_append,
              List.length_cons, List.length_nil, hlen] at *
            omega
          · show s.active ≤ s.max
            rw [hmax, hact]
            exact hle
        | error e =>
          simp only [Option.some.injEq] at h
          subst h
          obtain ⟨hs, _, _⟩ := herr e rfl
          subst hs
          exact ⟨hbal, hle⟩
    · exact absurd h (by simp)
  | close c =>
    simp only [step] at h
    split at h
    · rename_i hmem
      cases ha : Conn.Close c w.conn with
      | none => rw [ha] at h; exact absurd h (by simp)
      | some p =>
        obtain ⟨r, s⟩ := p
        obtain ⟨hmax, hclosed, hpool, hleak, _, _, hok, herr⟩ :=
          Close_spec c w.conn r s ha
        rw [ha] at h
        cases r with
        | ok u =>
          simp only [Option.some.injEq] at h
          subst h
          obtain ⟨hact, _, _, _⟩ := hok u rfl
          refine ⟨?_, ?_⟩
          · show bal s = (((w.held.erase c).length : Nat) : Int)
            have hlen : (w.held.erase c).length = w.held.length - 1 :=
              List.length_erase_of_mem hmem
            have hpos : 1 ≤ w.held.length := by
              cases hh : w.held with
              | nil => rw [hh] at hmem; simp at hmem
              | cons a l => simp
            simp only [bal, hpool, hact, hleak, hlen] at *
            omega
          · show s.active ≤ s.max
            rw [hmax, hact]
            omega
        | error e =>
          simp only [Option.some.injEq] at h
          subst h
          obtain ⟨hact, _, _, _, _⟩ := herr e rfl
          refine ⟨?_, ?_⟩
          · show bal s = ((w.held.length : Nat) : Int)
            simp only [bal, hpool, hact, hleak]
            exact hbal
          · show s.active ≤ s.max
            rw [hmax, hact]
            exact hle
    · exact absurd h (by simp)
  | release =>
    simp only [step] at h
    cases ha : Conn.Release w.conn with
    | none => rw [ha] at h; exact absurd h (by simp)
    | some p =>
      obtain ⟨r, s⟩ := p
      obtain ⟨hmax, hleak, hok, herr⟩ := Release_spec w.conn r s ha
      rw [ha] at h
      simp only [Option.some.injEq] at h
      subst h
      cases r with
      | ok u =>
        obtain ⟨_, _, _, hpool, hact, _, _, _⟩ := hok u rfl
        refine ⟨?_, ?_⟩
        · show bal s = ((w.held.length : Nat) : Int)
          simp only [bal, hpool, hact, hleak, List.length_nil] at *
          omega
        · show s.active ≤ s.max
          rw [hmax, hact]
          have : (0 : Int) ≤ (w.conn.pool.length : Int) := by positivity
          omega
      | error e =>
        obtain ⟨hs, _, _⟩ := herr e rfl
        subst hs
        exact ⟨hbal, hle⟩

theorem step_closed (bs : Builder) (w : World) (cmd : Cmd) (w' : World)
    (hc : w.conn.closed = true) (h : step bs w cmd = some w') :
    w'.conn.closed = true := by
  cases cmd with
  | acquire fuel =>
    simp only [step] at h
    cases ha : Conn.Acquire bs fuel w.conn with
    | none => rw [ha] at h; exact absurd h (by simp)
    | some p =>
      obtain ⟨r, s⟩ := p
      obtain ⟨_, hclosed, _, _, _⟩ := Acquire_spec bs fuel w.conn r s ha
      rw [ha] at h
      cases r with
      | ok c =>
        simp only [Option.some.injEq] at h
        subst h
        show s.closed = true
        rw [hclosed]; exact hc
      | error e =>
        simp only [Option.some.injEq] at h
        subst h
        show s.closed = true
        rw [hclosed]; exact hc
  | regain c =>
    simp only [step] at h
    split at h
    · cases ha : Conn.Regain c w.conn with
      | none => rw [ha] at h; exact absurd h (by simp)
      | some p =>
        obtain ⟨r, s⟩ := p
        obtain ⟨_, hclosed, _, _, _, _, _⟩ := Regain_spec c w.conn r s ha
        rw [ha] at h
        cases r with
        | ok u =>
          simp only [Option.some.injEq] at h
          subst h
          show s.closed = true
          rw [hclosed]; exact hc
        | error e =>
          simp only [Option.some.injEq] at h
          subst h
          show s.closed = true
          rw [hclosed]; exact hc
    · exact absurd h (by simp)
  | close c =>
    simp only [step] at h
    split at h
    · cases ha : Conn.Close c w.conn with
      | none => rw [ha] at h; exact absurd h (by simp)
      | some p =>
        obtain ⟨r, s⟩ := p
        obtain ⟨_, hclosed, _, _, _, _, _, _⟩ := Close_spec c w.conn r s ha
        rw [ha] at h
        cases r with
        | ok u =>
          simp only [Option.some.injEq] at h
          subst h
          show s.closed = true
          rw [hclosed]; exact hc
        | error e =>
          simp only [Option.some.injEq] at h
          subst h
          show s.closed = true
          rw [hclosed]; exact hc
    · exact absurd h (by simp)
  | release =>
    simp only [step] at h
    cases ha : Conn.Release w.conn with
    | none => rw [ha] at h; exact absurd h (by simp)
    | some p =>
      obtain ⟨r, s⟩ := p
      obtain ⟨_, _, hok, herr⟩ := Release_spec w.conn r s ha
      rw [ha] at h
      simp only [Option.some.injEq] at h
      subst h
      cases r with
      | ok u =>
        obtain ⟨_, _, hcl, _, _, _, _, _⟩ := hok u rfl
        exact hcl
      | error e =>
        obtain ⟨hs, _, _⟩ := herr e rfl
        show s.closed = true
        rw [hs]; exact hc

theorem run_WInv (bs : Builder) :
    ∀ (cmds : List Cmd) (w w' : World),
    WInv w → run bs w cmds = some w' → WInv w' := by
  intro cmds
  induction cmds with
  | nil =>
    intro w w' hinv h
    simp only [run, Option.some.injEq] at h
    subst h
    exact hinv
  | cons c cs ih =>
    intro w w' hinv h
    rw [run] at h
    cases hs : step bs w c with
    | none => rw [hs] at h; exact absurd h (by simp)
    | some w1 =>
      rw [hs] at h
      exact ih w1 w' (step_WInv bs w c w1 hinv hs) h

theorem NewManager_WInv (bs : Builder) (cap : Int) (s0 : Conn)
    (h : (NewManager cap bs).1 = .ok s0) : WInv ⟨s0, []⟩ ∧ s0.closed = false := by
  simp only [NewManager] at h
  split at h
  · exact absurd h (by simp)
  · rename_i hpos
    cases hf : Conn.fillLoop bs cap.toNat
        { notice := 0, pool := [], max := cap, active := 0, closed := false,
          locked := false, built := 0, leaked := 0, closeCalls := [] } with
    | mk r n =>
      cases r with
      | error e => rw [hf] at h; exact absurd h (by simp)
      | ok s =>
        rw [hf] at h
        simp only [Except.ok.injEq] at h
        subst h
        have hfst : (Conn.fillLoop bs cap.toNat
            { notice := 0, pool := [], max := cap, active := 0, closed := false,
              locked := false, built := 0, leaked := 0,
              closeCalls := [] }).1 = .ok s := by rw [hf]
        obtain ⟨ha, hp, hm, hc, _, hk, _⟩ := fillLoop_ok bs cap.toNat _ s hfst
        simp only at ha hp hm hc hk
        have hcap : ((cap.toNat : Nat) : Int) = cap := Int.toNat_of_nonneg (by omega)
        refine ⟨⟨?_, ?_⟩, hc⟩
        · show bal s = ((([] : List Poolable).length : Nat) : Int)
          simp only [bal, hp, hk, ha, List.length_nil]
          push_cast
          omega
        · show s.active ≤ s.max
          rw [ha, hm, hcap]
          omega

theorem Reachable_WInv (bs : Builder) (w : World) (h : Reachable bs w) : WInv w := by
  obtain ⟨cap, s0, cmds, hnew, hrun⟩ := h
  exact run_WInv bs cmds ⟨s0, []⟩ w (NewManager_WInv bs cap s0 hnew).1 hrun

example : (NewManager 1 bsLive).1 = .ok s0Live := by rfl

example : (NewManager 2 bsLive).1 = .ok s2Live := by rfl

/-- C1: for every reachable pool state, produced by `NewManager` followed by
any protocol-respecting sequence of `Acquire`, `Regain`, `Close`, `Release`
calls (each resource closed at most once, and only while held), the counter
`active` satisfies `0 ≤ active ≤ max`. -/
theorem C1_active_bounded (bs : Builder) (w : World) (h : Reachable bs w) :
    0 ≤ w.conn.active ∧ w.conn.active ≤ w.conn.max := by
  obtain ⟨hbal, hle⟩ := Reachable_WInv bs w h
  refine ⟨?_, hle⟩
  simp only [bal] at hbal
  omega

/-- C1 witness: the bound evaluated on the concrete reachable state produced
by `NewManager 1 bsLive`. -/
theorem C1_active_bounded_witness :
    0 ≤ (World.mk s0Live []).conn.active ∧
    (World.mk s0Live []).conn.active ≤ (World.mk s0Live []).conn.max :=
  C1_active_bounded bsLive ⟨s0Live, []⟩ ⟨1, s0Live, [], rfl, rfl⟩

/-- C6: on an open, lock-free pool in which every constructed resource is
idle in the available-set (`active = pool.length`, none checked out),
`Release` succeeds, calls the underlying close on each of the idle resources,
decrements `active` by their number down to zero, sets the closed flag, and
afterwards `Regain` is rejected with the pool-closed error. -/
theorem C6_release_drains (s : Conn) (r : Poolable)
    (hopen : s.closed = false) (hlock : s.locked = false)
    (hidle : s.active = (s.pool.length : Int)) :
    ∃ s', Conn.Release s = some (.ok (), s') ∧
      s'.active = s.active - (s.pool.length : Int) ∧ s'.active = 0 ∧
      s'.closed = true ∧ s'.pool = [] ∧
      s'.closeCalls = s.closeCalls ++ s.pool ∧
      Conn.Regain r s' = some (.error .poolClosed, s') := by
  use { s with pool := [], active := s.active - (s.pool.length : Int),
               closeCalls := s.closeCalls ++ s.pool, closed := true }
  refine ⟨?_, rfl, ?_, rfl, rfl, rfl, ?_⟩
  · rw [Conn.Release, hopen, hlock]
    simp
  · show s.active - (s.pool.length : Int) = 0
    omega
  · rw [Conn.Regain]
    simp

/-- C6 witness: releasing the concrete pool of capacity 2 with both
resources idle. -/
theorem C6_release_drains_witness :
    ∃ s', Conn.Release s2Live = some (.ok (), s') ∧
      s'.active = s2Live.active - (s2Live.pool.length : Int) ∧ s'.active = 0 ∧
      s'.closed = true ∧ s'.pool = [] ∧
      s'.closeCalls = s2Live.closeCalls ++ s2Live.pool ∧
      Conn.Regain p0 s' = some (.error .poolClosed, s') :=
  C6_release_drains s2Live p0 rfl rfl rfl

/-- C10: when the underlying close operation fails inside `Close`, the error
is returned and the accounting is untouched: `active` is not decremented, no
notice is enqueued, and the available-set is unchanged (the Go code returns
before the decrement; it does however keep the mutex locked). -/
theorem C10_close_fail_accounting (r : Poolable) (s : Conn)
    (hfail : r.closeFails = true) (hlock : s.locked = false) :
    ∃ s', Conn.Close r s = some (.error .closeErr, s') ∧
      s'.active = s.active ∧ s'.notice = s.notice ∧
      s'.pool = s.pool ∧ s'.closed = s.closed := by
  refine ⟨{ s with locked := true, closeCalls := s.closeCalls ++ [r] },
    ?_, rfl, rfl, rfl, rfl⟩
  rw [Conn.Close, hlock]
  simp [hfail]

/-- C10 witness: a failing close on the concrete capacity-1 pool. -/
theorem C10_close_fail_accounting_witness :
    ∃ s', Conn.Close ⟨9, false, true⟩ s0Live = some (.error .closeErr, s') ∧
      s'.active = s0Live.active ∧ s'.notice = s0Live.notice ∧
      s'.pool = s0Live.pool ∧ s'.closed = s0Live.closed :=
  C10_close_fail_accounting ⟨9, false, true⟩ s0Live rfl rfl

/-- C7: once `Release` has returned ok the closed flag is set, every
subsequent `Acquire`, `Regain` and second `Release` on the pool fails with
the pool-closed error, and no protocol step ever resets the flag (the flag
only transitions false to true). -/
theorem C7_release_one_way (bs : Builder) (fuel : Nat) (r : Poolable)
    (w w' : World) (cmd : Cmd) (s s1 : Conn)
    (hrel : Conn.Release s = some (.ok (), s1)) :
    s1.closed = true ∧
    Conn.Acquire bs fuel s1 = some (.error .poolClosed, s1) ∧
    Conn.Regain r s1 = some (.error .poolClosed, s1) ∧
    Conn.Release s1 = some (.error .poolClosed, s1) ∧
    (w.conn.closed = true → step bs w cmd = some w' → w'.conn.closed = true) := by
  have hclosed : s1.closed = true := by
    obtain ⟨_, _, hok, _⟩ := Release_spec s (.ok ()) s1 hrel
    exact (hok () rfl).2.2.1
  refine ⟨hclosed, ?_, ?_, ?_, ?_⟩
  · rw [Conn.Acquire, hclosed]
    simp
  · rw [Conn.Regain, hclosed]
    simp
  · rw [Conn.Release, hclosed]
    simp
  · exact fun hc h => step_closed bs w cmd w' hc h

/-- C7 witness: the one-way behaviour evaluated after releasing the concrete
capacity-1 pool. -/
theorem C7_release_one_way_witness :
    s0Rel.closed = true ∧
    Conn.Acquire bsLive 1 s0Rel = some (.error .poolClosed, s0Rel) ∧
    Conn.Regain p0 s0Rel = some (.error .poolClosed, s0Rel) ∧
    Conn.Release s0Rel = some (.error .poolClosed, s0Rel) ∧
    ((World.mk s0Rel []).conn.closed = true →
      step bsLive ⟨s0Rel, []⟩ .release = some ⟨s0Rel, []⟩ →
      (World.mk s0Rel []).conn.closed = true) :=
  C7_release_one_way bsLive 1 p0 ⟨s0Rel, []⟩ ⟨s0Rel, []⟩ .release s0Live s0Rel rfl

/-- C5 counterexample: a `Close` call whose underlying close fails returns
the error without decrementing `active` (and enqueues no notice), so the
claim that every `Close(resource)` call decrements `active` by exactly one
is false on the code. -/
theorem C5_counterexample :
    Conn.Close ⟨9, false, true⟩ s0Live =
      some (.error .closeErr,
        { s0Live with locked := true, closeCalls := [⟨9, false, true⟩] }) ∧
    ({ s0Live with locked := true,
                   closeCalls := [⟨9, false, true⟩] } : Conn).active = s0Live.active ∧
    s0Live.active - 1 ≠ s0Live.active := by
  refine ⟨rfl, rfl, by decide⟩

/-- C5 amended: for every `Close(resource)` call made while the state lock
is free and whose underlying close succeeds, the pool records the close
call, decrements `active` by exactly one, and enqueues exactly one notice if
none is pending, none otherwise. -/
theorem C5_close_success (r : Poolable) (s : Conn)
    (hok : r.closeFails = false) (hlock : s.locked = false) :
    ∃ s', Conn.Close r s = some (.ok (), s') ∧
      s'.active = s.active - 1 ∧
      s'.notice = (if s.notice = 0 then 1 else s.notice) ∧
      s'.closeCalls = s.closeCalls ++ [r] ∧
      s'.pool = s.pool ∧ s'.closed = s.closed ∧ s'.locked = false := by
  obtain ⟨no, po, mx, ac, cl, lk, bt, lkd, cc⟩ := s
  simp only at hlock
  subst hlock
  by_cases hn : no = 0
  · subst hn
    refine ⟨{ notice := 1, pool := po, max := mx, active := ac - 1, closed := cl,
              locked := false, built := bt, leaked := lkd,
              closeCalls := cc ++ [r] }, ?_, rfl, rfl, rfl, rfl, rfl, rfl⟩
    simp [Conn.Close, hok]
  · refine ⟨{ notice := no, pool := po, max := mx, active := ac - 1, closed := cl,
              locked := false, built := bt, leaked := lkd,
              closeCalls := cc ++ [r] }, ?_, rfl, ?_, rfl, rfl, rfl, rfl⟩
    · simp [Conn.Close, hok, hn]
    · simp [hn]

/-- C5 witness: a successful close on the concrete capacity-1 pool. -/
theorem C5_close_success_witness :
    ∃ s', Conn.Close p0 s0Live = some (.ok (), s') ∧
      s'.active = s0Live.active - 1 ∧
      s'.notice = (if s0Live.notice = 0 then 1 else s0Live.notice) ∧
      s'.closeCalls = s0Live.closeCalls ++ [p0] ∧
      s'.pool = s0Live.pool ∧ s'.closed = s0Live.closed ∧ s'.locked = false :=
  C5_close_success p0 s0Live rfl rfl

/-- C9: the claim that `Regain`, `Close` and `Release` never block beyond
briefly holding the state lock fails on the code: `Close` returns on a
failed underlying close WITHOUT unlocking the mutex, so on the reachable
state below every later `Close` and `Release` blocks forever on the lock.
`Regain`, which never touches the mutex, still succeeds.  This run evaluates
the code on the failing input: capacity 2, first resource with a failing
close; acquire both, `Close` the first (fails, keeps the lock), then try to
`Close` the second or `Release`. -/
theorem C9_close_blocks_after_failed_close :
    (NewManager 2 bsC9).1 = .ok { notice := 0, pool := [q0, p1], max := 2,
                                  active := 2, closed := false, locked := false,
                                  built := 2, leaked := 0, closeCalls := [] } ∧
    Conn.Acquire bsC9 1 { notice := 0, pool := [q0, p1], max := 2, active := 2,
                          closed := false, locked := false, built := 2,
                          leaked := 0, closeCalls := [] } =
      some (.ok q0, { sC9 with pool := [p1] }) ∧
    Conn.Acquire bsC9 1 { sC9 with pool := [p1] } = some (.ok p1, sC9) ∧
    Conn.Close q0 sC9 = some (.error .closeErr, sC9L) ∧
    sC9L.locked = true ∧
    Conn.Close p1 sC9L = none ∧
    Conn.Release sC9L = none ∧
    Conn.Regain p1 sC9L = some (.ok (), { sC9L with pool := [p1] }) := by
  refine ⟨rfl, rfl, rfl, rfl, rfl, rfl, rfl, rfl⟩

/-- C3 counterexample: the claim says every iteration of the retry loop of
`Acquire` first checks the closed flag and fails with the pool-closed error
when it is set; but the loop body never reads the flag, so an iteration
started on a state whose flag is set still hands out a resource. -/
theorem C3_counterexample :
    ¬ (∀ (bs : Builder) (fuel : Nat) (s : Conn), s.closed = true →
        Conn.acquireLoop bs (fuel + 1) s = some (.error .poolClosed, s)) := by
  intro hclaim
  have h := hclaim bsLive 0 sC3 rfl
  rw [show Conn.acquireLoop bsLive 1 sC3 =
      some (.ok ⟨5, false, false⟩, { sC3 with pool := [] }) from rfl] at h
  simp at h

/-- C3 amended: `Acquire` checks the closed flag exactly once, at entry,
failing immediately with the pool-closed error when it is set; the restarts
of the retry loop (after a notice or after internally closing a dead
resource) do not re-check the flag: an iteration whose pool front is a live
resource returns it whatever the flag says. -/
theorem C3_closed_checked_at_entry_only (bs : Builder) (fuel : Nat) (s : Conn)
    (c : Poolable) (rest : List Poolable) :
    (s.closed = true → Conn.Acquire bs fuel s = some (.error .poolClosed, s)) ∧
    (s.pool = c :: rest → c.done = false →
      Conn.acquireLoop bs (fuel + 1) s = some (.ok c, { s with pool := rest })) := by
  constructor
  · intro hc
    rw [Conn.Acquire, hc]
    simp
  · intro hp hd
    have ha : Conn.acquire bs s = some (.ok c, { s with pool := rest }) := by
      simp only [Conn.acquire, hp]
    rw [Conn.acquireLoop, ha]
    simp [hd]

/-- C3 witness: the amended behaviour on the concrete closed state with one
live resource still pooled. -/
theorem C3_closed_checked_at_entry_only_witness :
    (Conn.Acquire bsLive 1 sC3 = some (.error .poolClosed, sC3)) ∧
    (Conn.acquireLoop bsLive 2 sC3 =
      some (.ok ⟨5, false, false⟩, { sC3 with pool := [] })) :=
  ⟨(C3_closed_checked_at_entry_only bsLive 1 sC3 ⟨5, false, false⟩ []).1 rfl,
   (C3_closed_checked_at_entry_only bsLive 1 sC3 ⟨5, false, false⟩ []).2 rfl rfl⟩

/-- C4 counterexample: when the popped dead resource has a failing
underlying close, `Acquire` still discards it and retries, but `active` is
NOT decremented (the Go code ignores the `Close` error, which returned
before the decrement), so the claim that every popped expired resource is
closed WITH a decrement of `active` is false on the code. -/
theorem C4_counterexample :
    Conn.Acquire bsLive 2 sC4 =
      some (.ok p1, { notice := 0, pool := [], max := 2, active := 2,
                      closed := false, locked := true, built := 2, leaked := 1,
                      closeCalls := [pDeadBad] }) ∧
    ({ notice := 0, pool := [], max := 2, active := 2, closed := false,
       locked := true, built := 2, leaked := 1,
       closeCalls := [pDeadBad] } : Conn).active = sC4.active ∧
    sC4.active - 1 ≠ sC4.active := by
  refine ⟨rfl, rfl, by decide⟩

/-- C4 amended: `Acquire` never returns a resource whose liveness signal had
fired when inspected, and every popped expired resource is discarded and the
call retries; the discard decrements `active` when the underlying close
succeeds (on a failing close the resource is dropped without the
decrement). -/
theorem C4_returns_only_live (bs : Builder) (fuel : Nat) (s : Conn) :
    (∀ (c : Poolable) (s' : Conn),
      Conn.Acquire bs fuel s = some (.ok c, s') → c.done = false) ∧
    (∀ (c : Poolable) (rest : List Poolable),
      s.pool = c :: rest → c.done = true → c.closeFails = false →
      s.locked = false →
      Conn.acquireLoop bs (fuel + 1) s =
        Conn.acquireLoop bs fuel
          { s with pool := rest, active := s.active - 1,
                   notice := if s.notice = 0 then 1 else s.notice,
                   closeCalls := s.closeCalls ++ [c] }) := by
  constructor
  · intro c s' h
    obtain ⟨_, _, _, hok, _⟩ := Acquire_spec bs fuel s (.ok c) s' h
    exact (hok c rfl).2
  · intro c rest hp hd hcf hlock
    have ha : Conn.acquire bs s = some (.ok c, { s with pool := rest }) := by
      simp only [Conn.acquire, hp]
    rw [Conn.acquireLoop, ha]
    simp only [hd, if_true]
    have hcl : Conn.Close c { s with pool := rest } =
        some (.ok (), { s with pool := rest, active := s.active - 1,
                               notice := if s.notice = 0 then 1 else s.notice,
                               closeCalls := s.closeCalls ++ [c] }) := by
      obtain ⟨no, po, mx, ac, cl, lk, bt, lkd, cc⟩ := s
      simp only at hlock
      subst hlock
      by_cases hn : no = 0
      · subst hn
        simp [Conn.Close, hcf]
      · simp [Conn.Close, hcf, hn]
    rw [hcl]

/-- C4 witness: on `sC4w`, `Acquire` discards the dead resource, builds a
replacement and returns it live; the dead-resource iteration rewrites to the
decremented state. -/
theorem C4_returns_only_live_witness :
    ((⟨1, false, false⟩ : Poolable).done = false) ∧
    (Conn.acquireLoop bsLive 2 sC4w =
      Conn.acquireLoop bsLive 1
        { sC4w with pool := [], active := sC4w.active - 1,
                    notice := if sC4w.notice = 0 then 1 else sC4w.notice,
                    closeCalls := sC4w.closeCalls ++ [⟨3, true, false⟩] }) :=
  ⟨(C4_returns_only_live bsLive 2 sC4w).1 ⟨1, false, false⟩
      { notice := 1, pool := [], max := 1, active := 1, closed := false,
        locked := false, built := 2, leaked := 0,
        closeCalls := [⟨3, true, false⟩] } rfl,
   (C4_returns_only_live bsLive 1 sC4w).2 ⟨3, true, false⟩ [] rfl rfl rfl rfl⟩

/-- C8 counterexample: on the capacity-2 pool with both resources idle,
Acquire pops `p0`, `Regain p0` appends it behind `p1`, and the next Acquire
returns `p1`, not the regained `p0` — the available-set is FIFO, so the
round-trip returns the OLDEST idle resource, which differs from the regained
one as soon as another resource is idle. -/
theorem C8_counterexample :
    Conn.Acquire bsLive 1 s2Live = some (.ok p0, { s2Live with pool := [p1] }) ∧
    Conn.Regain p0 { s2Live with pool := [p1] } =
      some (.ok (), { s2Live with pool := [p1, p0] }) ∧
    Conn.Acquire bsLive 1 { s2Live with pool := [p1, p0] } =
      some (.ok p1, { s2Live with pool := [p0] }) ∧
    p1 ≠ p0 := by
  refine ⟨rfl, rfl, rfl, by decide⟩

/-- C8 amended: the Acquire-Regain-Acquire round trip returns the same
resource exactly when the regained resource is the only idle one (the
available-set was empty after the first Acquire, e.g. capacity 1 or all
other resources checked out); the available-set preserves FIFO order. -/
theorem C8_roundtrip_singleton (bs : Builder) (fuel : Nat) (s : Conn)
    (c : Poolable) (hopen : s.closed = false) (hpool : s.pool = [c])
    (hlive : c.done = false) (hcap : 0 < s.max) :
    Conn.Acquire bs (fuel + 1) s = some (.ok c, { s with pool := [] }) ∧
    Conn.Regain c { s with pool := [] } = some (.ok (), { s with pool := [c] }) ∧
    Conn.Acquire bs (fuel + 1) { s with pool := [c] } =
      some (.ok c, { s with pool := [] }) := by
  obtain ⟨no, po, mx, ac, cl, lk, bt, lkd, cc⟩ := s
  simp only at hopen hpool hcap
  subst hopen hpool
  refine ⟨?_, ?_, ?_⟩
  · rw [Conn.Acquire]
    simp only [Bool.false_eq_true, if_false]
    rw [Conn.acquireLoop]
    have ha : Conn.acquire bs
        { notice := no, pool := [c], max := mx, active := ac, closed := false,
          locked := lk, built := bt, leaked := lkd, closeCalls := cc } =
        some (.ok c, { notice := no, pool := [], max := mx, active := ac,
                       closed := false, locked := lk, built := bt,
                       leaked := lkd, closeCalls := cc }) := by
      simp only [Conn.acquire]
    rw [ha]
    simp [hlive]
  · rw [Conn.Regain]
    simp only [Bool.false_eq_true, if_false, List.length_nil]
    rw [if_pos (by omega : 0 < mx.toNat)]
    rfl
  · rw [Conn.Acquire]
    simp only [Bool.false_eq_true, if_false]
    rw [Conn.acquireLoop]
    have ha : Conn.acquire bs
        { notice := no, pool := [c], max := mx, active := ac, closed := false,
          locked := lk, built := bt, leaked := lkd, closeCalls := cc } =
        some (.ok c, { notice := no, pool := [], max := mx, active := ac,
                       closed := false, locked := lk, built := bt,
                       leaked := lkd, closeCalls := cc }) := by
      simp only [Conn.acquire]
    rw [ha]
    simp [hlive]

/-- C8 witness: the singleton round trip on the concrete capacity-1 pool. -/
theorem C8_roundtrip_singleton_witness :
    Conn.Acquire bsLive 1 s0Live = some (.ok p0, { s0Live with pool := [] }) ∧
    Conn.Regain p0 { s0Live with pool := [] } =
      some (.ok (), { s0Live with pool := [p0] }) ∧
    Conn.Acquire bsLive 1 { s0Live with pool := [p0] } =
      some (.ok p0, { s0Live with pool := [] }) :=
  C8_roundtrip_singleton bsLive 0 s0Live p0 rfl rfl rfl (by decide)

/-- C2: `NewManager` rejects a non-positive capacity with the config error
without invoking the builder; with a positive capacity and a builder that
succeeds that many times it invokes the builder exactly `capacity` times and
returns an open pool with `active = capacity` whose available-set holds
exactly the built resources in order; and when some builder call fails
(every earlier one succeeding), the error propagates and no pool is
produced. -/
theorem C2_newManager_spec :
    (∀ (bs : Builder) (cap : Int), cap ≤ 0 →
      NewManager cap bs = (.error .invalidConfig, 0)) ∧
    (∀ (bs : Builder) (cap : Int) (f : Nat → Poolable), 0 < cap →
      (∀ i, i < cap.toNat → bs i = .ok (f i)) →
      NewManager cap bs =
        (.ok { notice := 0, pool := (List.range cap.toNat).map f, max := cap,
               active := cap, closed := false, locked := false,
               built := cap.toNat, leaked := 0, closeCalls := [] }, cap.toNat)) ∧
    (∀ (bs : Builder) (cap : Int) (j : Nat), 0 < cap → j < cap.toNat →
      (∀ i, i < j → ∃ p, bs i = .ok p) → bs j = .error () →
      (NewManager cap bs).1 = .error .builderErr) := by
  refine ⟨?_, ?_, ?_⟩
  · intro bs cap hle
    rw [NewManager, if_pos hle]
  · intro bs cap f hpos hall
    have hinit : ∀ i, i < cap.toNat →
        bs ((0 : Nat) + i) = .ok (f ((0 : Nat) + i)) := by
      intro i hi
      simpa using hall i hi
    have hfill := fillLoop_all_ok bs f cap.toNat
      { notice := 0, pool := [], max := cap, active := 0, closed := false,
        locked := false, built := 0, leaked := 0, closeCalls := [] } hinit
    have hcap : ((cap.toNat : Nat) : Int) = cap := Int.toNat_of_nonneg (by omega)
    simp only [NewManager, if_neg (by omega : ¬ cap ≤ 0)]
    rw [hfill]
    simp [List.range_eq_range', hcap]
  · intro bs cap j hpos hjlt hok herr
    have hfe := fillLoop_first_error bs j cap.toNat
      { notice := 0, pool := [], max := cap, active := 0, closed := false,
        locked := false, built := 0, leaked := 0, closeCalls := [] }
      hjlt (by intro i hi; simpa using hok i hi) (by simpa using herr)
    simp only [NewManager, if_neg (by omega : ¬ cap ≤ 0)]
    cases hf : Conn.fillLoop bs cap.toNat
        { notice := 0, pool := [], max := cap, active := 0, closed := false,
          locked := false, built := 0, leaked := 0, closeCalls := [] } with
    | mk r n =>
      cases r with
      | ok s =>
        rw [hf] at hfe
        exact absurd hfe (by simp)
      | error e =>
        rfl

/-- C2 witness: the three behaviours at capacity 0, at capacity 2 with the
always-succeeding builder, and at capacity 2 with a builder failing on its
second call. -/
theorem C2_newManager_spec_witness :
    NewManager 0 bsLive = (.error .invalidConfig, 0) ∧
    NewManager 2 bsLive =
      (.ok { notice := 0,
             pool := (List.range (2 : Int).toNat).map (fun i => ⟨i, false, false⟩),
             max := 2, active := 2, closed := false, locked := false,
             built := (2 : Int).toNat, leaked := 0,
             closeCalls := [] }, (2 : Int).toNat) ∧
    (NewManager 2 bsFail).1 = .error .builderErr :=
  ⟨C2_newManager_spec.1 bsLive 0 (by decide),
   C2_newManager_spec.2.1 bsLive 2 (fun i => ⟨i, false, false⟩) (by decide)
     (fun i _ => rfl),
   C2_newManager_spec.2.2 bsFail 2 1 (by decide) (by decide)
     (fun i hi => ⟨p0, by
        have hz : i = 0 := by omega
        subst hz
        rfl⟩)
     rfl⟩
